import Mathlib

/-!
Shallow embedding of `rdfind.py`, a duplicate-file finder that collapses
byte-identical files into hardlinks.  Files on disk are modelled as
records carrying the `os.stat` fields the program reads together with the
byte content of the file; reading a file goes through the `content`
field.  The external `hashlib.md5` digest is modelled as an abstract
function parameter `digest : List Nat → String` (the program only relies
on it being a deterministic function of the bytes fed to it).
-/

set_option autoImplicit false

universe u v

/-- Result of `os.stat`: the fields `rdfind.py` reads. `st_size` is a `Nat`
since `os.stat` never reports a negative size; `st_mtime_ns` is an `Int`
(nanoseconds, may be negative for pre-epoch times). -/
structure Stat where
  st_dev : Nat
  st_ino : Nat
  st_size : Nat
  st_mtime_ns : Int
deriving DecidableEq

/-- The `info` dictionary built by `get_info` (path + stat), extended with
the on-disk byte content of the file (the filesystem state that
`open`/`read` observe) and the `relpath` entry that the scanner stores
when `--groupby-relative` is set (modelled as always present; it is only
read when that flag is set). -/
structure Info where
  path : String
  relpath : String
  stat : Stat
  content : List Nat
deriving DecidableEq

/-- CHUNK_SIZE = 4096. -/
def CHUNK_SIZE : Nat := 4096

/-- SMART_LIMIT = 2**10. -/
def SMART_LIMIT : Nat := 2 ^ 10

/-- `fileid(info)`: the `(st_dev, st_ino)` pair. -/
def fileid (i : Info) : Nat × Nat := (i.stat.st_dev, i.stat.st_ino)

/-- `size(info)`: `st_size`. -/
def size (i : Info) : Nat := i.stat.st_size

/-- `relpath(info)`: the stored relative path. -/
def relpathOf (i : Info) : String := i.relpath

/-- The chunked read loop of `md5`: `iter(lambda: f.read(CHUNK_SIZE), b'')`
splits the file content into CHUNK_SIZE-byte chunks (fuel-indexed so the
recursion is structural; the fuel is the length of the list). -/
def readChunksAux : Nat → List Nat → List (List Nat)
  | 0, _ => []
  | _, [] => []
  | fuel + 1, a :: l => ((a :: l).take CHUNK_SIZE) :: readChunksAux fuel ((a :: l).drop CHUNK_SIZE)

/-- All CHUNK_SIZE-byte chunks of a byte list, in order. -/
def readChunks (l : List Nat) : List (List Nat) := readChunksAux l.length l

/-- `md5(info)`: streams the file in CHUNK_SIZE chunks through the digest;
`hash_md5.update` on successive chunks digests their concatenation. -/
def md5 (digest : List Nat → String) (i : Info) : String :=
  digest ((readChunks i.content).foldl (fun acc c => acc ++ c) [])

/-- `fasthash(info)`: seek to `size(info) // 2` and read 4 bytes. -/
def fasthash (i : Info) : List Nat :=
  (i.content.drop (size i / 2)).take 4

/-- A content-hash key: `md5` returns a hex `str`, `fasthash` returns
`bytes`; the two Python types are never equal, so the key space is the
disjoint sum of the two. -/
inductive HashVal where
  | full (s : String)
  | fast (b : List Nat)
deriving DecidableEq

/-- `smarthash(info)`: full md5 below SMART_LIMIT, `fasthash` otherwise. -/
def smarthash (digest : List Nat → String) (i : Info) : HashVal :=
  if i.stat.st_size < SMART_LIMIT then .full (md5 digest i) else .fast (fasthash i)

/-- `bytecmp(info1, info2)`: unequal sizes differ; equal `(st_dev, st_ino)`
match trivially; otherwise `filecmp.cmp(..., shallow=False)`, i.e. the two
files' byte contents are compared. -/
def bytecmp (i1 i2 : Info) : Bool :=
  if i1.stat.st_size ≠ i2.stat.st_size then false
  else if fileid i1 = fileid i2 then true
  else decide (i1.content = i2.content)

/-- Python `s.startswith(p)` on paths. -/
def startswith (s p : String) : Bool := p.toList.isPrefixOf s.toList

/-- `by_first_parent(infos, parents)`: outer loop over `parents`, inner
loop over `infos`, returning the first info whose path starts with the
current parent; `None` when nothing matches. -/
def by_first_parent (infos : List Info) : List String → Option Info
  | [] => none
  | p :: ps =>
    match infos.find? (fun i => startswith i.path p) with
    | some i => some i
    | none => by_first_parent infos ps

section GroupMachinery

variable {α : Type u} {κ : Type v}

/-- Lookup in an association list (Python `dict` access by key: the keys
stored are pairwise distinct, so first match is the entry). -/
def lookupA [DecidableEq κ] (k : κ) : List (κ × List α) → Option (List α)
  | [] => none
  | p :: rest => if p.1 = k then some p.2 else lookupA k rest

/-- Store a value under a key in an association list: replaces the
existing entry in place, or appends a fresh entry at the end (Python
`dict` insertion order). -/
def updateA [DecidableEq κ] (k : κ) (v : List α) : List (κ × List α) → List (κ × List α)
  | [] => [(k, v)]
  | p :: rest => if p.1 = k then (k, v) :: rest else p :: updateA k v rest

/-- Loop state of `group`: `items_by_key` (a `dict` of buckets, in key
insertion order), the keys of the buckets already appended to
`groups_list` (Python appends the live list object; its final content is
found in `itemsByKey`, which models the aliasing), and the two counters. -/
structure GroupState (κ : Type v) (α : Type u) where
  itemsByKey : List (κ × List α)
  emittedKeys : List κ
  itemsCount : Nat
  groupedCount : Nat

/-- One iteration of the `for item in items` loop of `group`.  The bucket
is fetched (created empty if absent), the emission / counting checks run
on the bucket length before the item is appended, then the item is
appended. -/
def gStep [DecidableEq κ] (reducer : α → κ) (minSize : Nat)
    (s : GroupState κ α) (a : α) : GroupState κ α :=
  let k := reducer a
  let cur := (lookupA k s.itemsByKey).getD []
  { itemsByKey := updateA k (cur ++ [a]) s.itemsByKey
    emittedKeys := if cur.length = minSize then s.emittedKeys ++ [k] else s.emittedKeys
    itemsCount := s.itemsCount + 1
    groupedCount :=
      s.groupedCount + (if cur.length = minSize then minSize else 0)
        + (if minSize ≤ cur.length then 1 else 0) }

/-- The full loop of `group`. -/
def groupRun [DecidableEq κ] (items : List α) (reducer : α → κ) (minSize : Nat) :
    GroupState κ α :=
  items.foldl (gStep reducer minSize) ⟨[], [], 0, 0⟩

/-- `group(items, reducer, min_size)`: returns
`(items_count, grouped_count, groups_list)`.  Each entry of `groups_list`
is the final content of the emitted bucket (Python appends the list
object itself, which keeps receiving later items). -/
def group [DecidableEq κ] (items : List α) (reducer : α → κ) (minSize : Nat) :
    Nat × Nat × List (List α) :=
  let s := groupRun items reducer minSize
  (s.itemsCount, s.groupedCount, s.emittedKeys.filterMap (fun k => lookupA k s.itemsByKey))

/-- Index lookup in a list (Python `lst[i]` read access, as an `Option`). -/
def getA : List α → Nat → Option α
  | [], _ => none
  | b :: _, 0 => some b
  | _ :: l, n + 1 => getA l n

/-- In-place update of a list index (mutating an aliased Python list). -/
def setA : List α → Nat → α → List α
  | [], _, _ => []
  | _ :: l, 0, b => b :: l
  | c :: l, n + 1, b => c :: setA l n b

/-- Index of the first element satisfying a predicate (the linear
`for bucket in buckets` scan of `selector` with its `break`). -/
def findIdxA (p : α → Bool) : List α → Option Nat
  | [] => none
  | a :: l => if p a then some 0 else (findIdxA p l).map (· + 1)

/-- A `selector` bucket: its first element (`bucket[0]`) and the rest. -/
def bucketList (b : α × List α) : List α := b.1 :: b.2

/-- Loop state of `selector`: the buckets in creation order, the indices
of buckets already appended to `groups_list` in emission order (Python
appends the live list object; the final content is read off `buckets`,
which models the aliasing), and the two counters. -/
structure SelState (α : Type u) where
  buckets : List (α × List α)
  emittedIdx : List Nat
  itemsCount : Nat
  groupedCount : Nat

/-- One iteration of the `for item in items` loop of `selector`: scan the
buckets for the first one whose first member matches; emit / count with
the bucket length before appending, then append; otherwise start a fresh
bucket. -/
def selStep (comp : α → α → Bool) (minSize : Nat) (s : SelState α) (a : α) : SelState α :=
  match findIdxA (fun b => comp a b.1) s.buckets with
  | none =>
    { s with buckets := s.buckets ++ [(a, [])], itemsCount := s.itemsCount + 1 }
  | some i =>
    let b := (getA s.buckets i).getD (a, [])
    let len := (bucketList b).length
    { buckets := setA s.buckets i (b.1, b.2 ++ [a])
      emittedIdx := if len = minSize then s.emittedIdx ++ [i] else s.emittedIdx
      itemsCount := s.itemsCount + 1
      groupedCount :=
        s.groupedCount + (if len = minSize then minSize else 0)
          + (if minSize ≤ len then 1 else 0) }

/-- The full loop of `selector`. -/
def selectorRun (items : List α) (comp : α → α → Bool) (minSize : Nat) : SelState α :=
  items.foldl (selStep comp minSize) ⟨[], [], 0, 0⟩

/-- `selector(items, comperator, min_size)`: returns
`(items_count, grouped_count, groups_list)`, each group being the final
content of the emitted (aliased) bucket. -/
def selector (items : List α) (comp : α → α → Bool) (minSize : Nat) :
    Nat × Nat × List (List α) :=
  let s := selectorRun items comp minSize
  (s.itemsCount, s.groupedCount,
    s.emittedIdx.filterMap (fun i => (getA s.buckets i).map bucketList))

end GroupMachinery

/-! ## The main pipeline -/

/-- CLI arguments of `rdfind.py` (defaults as declared by `argparse`):
`--min-size 4096`, `--max-size 9223372036854775807`, `--merge max`,
`--mtime order`. -/
structure Args where
  dry_run : Bool
  normalize : Bool
  groupby_relative : Bool
  min_size : Int
  max_size : Int
  merge : String
  mtime : String
  smarthash : Bool
deriving DecidableEq

/-- The default argument values. -/
def defaultArgs : Args :=
  { dry_run := false, normalize := false, groupby_relative := false
    min_size := 4096, max_size := 9223372036854775807
    merge := "max", mtime := "order", smarthash := false }

/-- The content-hash reducer of the pipeline:
`smarthash if args.smarthash else md5` (the md5 string and fasthash bytes
live in the disjoint key space `HashVal`). -/
def hashKey (digest : List Nat → String) (args : Args) (i : Info) : HashVal :=
  if args.smarthash then smarthash digest i else .full (md5 digest i)

/-- One reducer pass of `main`: apply `group` with `min_size=1` to every
current group and concatenate the emitted groups. -/
def stageReduce {κ : Type v} [DecidableEq κ] (r : Info → κ) (gl : List (List Info)) :
    List (List Info) :=
  gl.flatMap (fun g => (group g r 1).2.2)

/-- The comparator pass of `main`: apply `selector` with `min_size=2`
(`bytecmp`) to every group and concatenate the emitted groups. -/
def stageExact (gl : List (List Info)) : List (List Info) :=
  gl.flatMap (fun g => (selector g bytecmp 2).2.2)

/-- The detection part of `main`: starting from `groups_list = [items]`,
apply the reducers (`relpath` first when `--groupby-relative`, then
`size`, then the content hash), then the `bytecmp` selector. -/
def confirmedGroups (digest : List Nat → String) (args : Args) (items : List Info) :
    List (List Info) :=
  let gl0 := [items]
  let gl1 := if args.groupby_relative then stageReduce relpathOf gl0 else gl0
  let gl2 := stageReduce size gl1
  let gl3 := stageReduce (hashKey digest args) gl2
  stageExact gl3

/-! ## Scanner -/

/-- A directory tree: whether the directory is readable (`os.scandir`
succeeds on it), the regular files directly inside it (already carrying
their stat/content snapshots), and its subdirectories. -/
inductive FSTree where
  | node : Bool → List Info → List FSTree → FSTree

/-- Python exception outcomes the embedded code can raise. -/
inductive PyErr where
  | typeError
  | valueError
  | indexError
  | scanError
deriving DecidableEq

mutual

/-- Models CPython `os.walk` (top-down): yields the files of a readable
directory and recurses into its subdirectories.  On an unreadable
directory `scandir` raises; `os.walk` passes the error to `onerror`,
which is `None` in `rdfind.py`, so the error is swallowed and the whole
subtree is skipped.  The `raiseErr` flag models an `onerror` handler that
re-raises (what the spec's ScanError would require); the source always
calls with `raiseErr = false`. -/
def walkTree (raiseErr : Bool) : FSTree → Except PyErr (List Info)
  | .node readable files subs =>
    if readable then
      match walkForest raiseErr subs with
      | .error e => .error e
      | .ok rest => .ok (files ++ rest)
    else if raiseErr then .error .scanError else .ok []

/-- Walk each subdirectory in order, concatenating the files. -/
def walkForest (raiseErr : Bool) : List FSTree → Except PyErr (List Info)
  | [] => .ok []
  | t :: ts =>
    match walkTree raiseErr t with
    | .error e => .error e
    | .ok l =>
      match walkForest raiseErr ts with
      | .error e => .error e
      | .ok rest => .ok (l ++ rest)

end

/-- The size filter of the scan loop: `if not min_size < st_size <
max_size: continue` keeps exactly the records with
`min_size < st_size < max_size` (strict on both sides). -/
def sizeFilter (minS maxS : Int) (items : List Info) : List Info :=
  items.filter (fun i => decide (minS < (i.stat.st_size : Int)) && decide ((i.stat.st_size : Int) < maxS))

/-- The item-collection loop of `main`: walk every root in order and keep
the records passing the size filter. -/
def scanItems (minS maxS : Int) (raiseErr : Bool) : List FSTree → Except PyErr (List Info)
  | [] => .ok []
  | t :: ts =>
    match walkTree raiseErr t with
    | .error e => .error e
    | .ok l =>
      match scanItems minS maxS raiseErr ts with
      | .error e => .error e
      | .ok rest => .ok (sizeFilter minS maxS l ++ rest)

/-! ## Merge step -/

/-- Filesystem-mutating or printing operations `main` performs, in
program order. -/
inductive Effect where
  | echo (s : String)
  | utime (path : String) (ns : Int)
  | remove (path : String)
  | link (src : String) (dst : String)
deriving DecidableEq

/-- Whether an effect is a plain stdout line (no filesystem mutation). -/
def Effect.isEcho : Effect → Bool
  | .echo _ => true
  | _ => false

/-- The confirmed-group stdout line:
`'"' + '" "'.join(i['path'] for i in g) + '"'`. -/
def renderGroup (g : List Info) : String :=
  "\"" ++ String.intercalate "\" \"" (g.map (fun i => i.path)) ++ "\""

/-- Python `max(l, key=f)`: `ValueError` on an empty list, otherwise the
first element attaining the maximal key. -/
def pyMax {β : Type u} (f : β → Nat) : List β → Except PyErr β
  | [] => .error .valueError
  | x :: xs => .ok (xs.foldl (fun b a => if f b < f a then a else b) x)

/-- The per-group body of the merge loop of `main` (lines 209-230):
origin selection, mtime selection, `os.utime`, then delete + hardlink of
every non-origin path.  Subscripting `None` (a missing origin, or a
`None` passed in `os.utime`'s `ns` tuple) raises `TypeError`.  Note the
declared `--mtime` choices are `order`, `newest`, `merge`, but the
branches test `merge`, `order`, `max`: the choice `newest` sets nothing,
leaving `mtime_ns = None`. -/
def mergeGroup (args : Args) (paths : List String) (g : List Info) :
    Except PyErr (List Effect) :=
  let originE : Except PyErr (Option Info) :=
    if args.merge = "max" then
      match pyMax (fun l => l.length) ((group g fileid 0).2.2) with
      | .error e => .error e
      | .ok best =>
        match best with
        | [] => .error .indexError
        | o :: _ => .ok (some o)
    else if args.merge = "order" then .ok (by_first_parent g paths)
    else .ok none
  match originE with
  | .error e => .error e
  | .ok originOpt =>
    let mtimeE : Except PyErr (Option Int) :=
      if args.mtime = "merge" then
        match originOpt with
        | none => .error .typeError
        | some o => .ok (some o.stat.st_mtime_ns)
      else if args.mtime = "order" then
        match by_first_parent g paths with
        | none => .error .typeError
        | some o => .ok (some o.stat.st_mtime_ns)
      else if args.mtime = "max" then
        match g with
        | [] => .error .valueError
        | x :: xs => .ok (some ((xs.map (fun i => i.stat.st_mtime_ns)).foldl max x.stat.st_mtime_ns))
      else .ok none
    match mtimeE with
    | .error e => .error e
    | .ok mtimeOpt =>
      match originOpt with
      | none => .error .typeError
      | some o =>
        match mtimeOpt with
        | none => .error .typeError
        | some m =>
          .ok (Effect.utime o.path m ::
            (g.filter (fun i => i.path ≠ o.path)).flatMap
              (fun i => [Effect.remove i.path, Effect.link o.path i.path]))

/-- The merge loop over all confirmed groups: effects accumulate until
the first uncaught exception aborts the run. -/
def mergeAll (args : Args) (paths : List String) : List (List Info) → List Effect × Option PyErr
  | [] => ([], none)
  | g :: gs =>
    match mergeGroup args paths g with
    | .error e => ([], some e)
    | .ok effs =>
      let rest := mergeAll args paths gs
      (effs ++ rest.1, rest.2)

/-- The tail of `main` after the items are collected: print one line per
confirmed group, then (unless `--dry-run`) run the merge loop.  Returns
the ordered effect trace and the exception that aborted the run, if
any. -/
def mainEffects (digest : List Nat → String) (args : Args) (paths : List String)
    (items : List Info) : List Effect × Option PyErr :=
  let gl := confirmedGroups digest args items
  let outLines := gl.map (fun g => Effect.echo (renderGroup g))
  if args.dry_run then (outLines, none)
  else
    let m := mergeAll args paths gl
    (outLines ++ m.1, m.2)

/-! ## Canonical description of the `group` loop state -/

section GroupLemmas

variable {α : Type u} {κ : Type v} [DecidableEq κ]

/-- The items of a list whose reducer key is `k`, in order. -/
def keyFilter (r : α → κ) (k : κ) (l : List α) : List α :=
  l.filter (fun a => decide (r a = k))

/-- How many items of a list have reducer key `k`. -/
def keyCount (r : α → κ) (k : κ) (l : List α) : Nat :=
  (keyFilter r k l).length

/-- The distinct reducer keys of a list, in first-occurrence order
(Python `dict` insertion order). -/
def firstKeys (r : α → κ) (l : List α) : List κ :=
  l.foldl (fun ks a => if r a ∈ ks then ks else ks ++ [r a]) []

/-- The keys of the buckets `group` appends to `groups_list`, in emission
order: key `k` is emitted at the arrival of the item that finds the `k`
bucket already holding exactly `m` items. -/
def emitKeysAux (r : α → κ) (m : Nat) : List α → List α → List κ
  | _, [] => []
  | pref, a :: rest =>
    if keyCount r (r a) pref = m then r a :: emitKeysAux r m (pref ++ [a]) rest
    else emitKeysAux r m (pref ++ [a]) rest

/-- The emitted keys of a full `group` run. -/
def emitKeys (r : α → κ) (m : Nat) (l : List α) : List κ := emitKeysAux r m [] l

/-- The contribution of a bucket of final size `c` to `grouped_count`. -/
def gWeight (m c : Nat) : Nat := if m < c then c else 0

theorem keyFilter_append (r : α → κ) (k : κ) (l1 l2 : List α) :
    keyFilter r k (l1 ++ l2) = keyFilter r k l1 ++ keyFilter r k l2 := by
  simp [keyFilter]

theorem keyFilter_singleton (r : α → κ) (k : κ) (a : α) :
    keyFilter r k [a] = if r a = k then [a] else [] := by
  by_cases h : r a = k <;> simp [keyFilter, h]

theorem keyCount_append_singleton (r : α → κ) (k : κ) (l : List α) (a : α) :
    keyCount r k (l ++ [a]) = keyCount r k l + if r a = k then 1 else 0 := by
  by_cases h : r a = k <;>
    simp [keyCount, keyFilter_append, keyFilter_singleton, h]

theorem keyFilter_eq_nil_iff (r : α → κ) (k : κ) (l : List α) :
    keyFilter r k l = [] ↔ k ∉ l.map r := by
  simp only [keyFilter, List.filter_eq_nil_iff, List.mem_map, decide_eq_true_eq]
  constructor
  · rintro h ⟨a, ha, rfl⟩
    exact h a ha rfl
  · rintro h a ha rfl
    exact h ⟨a, ha, rfl⟩

theorem firstKeys_append_singleton (r : α → κ) (l : List α) (a : α) :
    firstKeys r (l ++ [a]) =
      if r a ∈ firstKeys r l then firstKeys r l else firstKeys r l ++ [r a] := by
  simp [firstKeys, List.foldl_append]

theorem mem_firstKeys (r : α → κ) (k : κ) (l : List α) :
    k ∈ firstKeys r l ↔ k ∈ l.map r := by
  induction l using List.reverseRecOn with
  | nil => simp [firstKeys]
  | append_singleton l a ih =>
    rw [firstKeys_append_singleton]
    by_cases h : r a ∈ firstKeys r l
    · simp only [if_pos h, List.map_append, List.map_cons, List.map_nil]
      constructor
      · intro hk
        exact List.mem_append_left _ (ih.mp hk)
      · intro hk
        rcases List.mem_append.mp hk with hk | hk
        · exact ih.mpr hk
        · simp only [List.mem_singleton] at hk
          subst hk
          exact h
    · simp only [if_neg h, List.mem_append, List.mem_singleton, List.map_append,
        List.map_cons, List.map_nil, ih]

theorem firstKeys_nodup (r : α → κ) (l : List α) : (firstKeys r l).Nodup := by
  induction l using List.reverseRecOn with
  | nil => simp [firstKeys]
  | append_singleton l a ih =>
    rw [firstKeys_append_singleton]
    by_cases h : r a ∈ firstKeys r l
    · simpa [h] using ih
    · simp only [if_neg h]
      exact List.Nodup.append ih (List.nodup_singleton _) (by simpa using h)

theorem emitKeysAux_append (r : α → κ) (m : Nat) (pref l : List α) (a : α) :
    emitKeysAux r m pref (l ++ [a]) =
      emitKeysAux r m pref l ++
        (if keyCount r (r a) (pref ++ l) = m then [r a] else []) := by
  induction l generalizing pref with
  | nil => by_cases h : keyCount r (r a) pref = m <;> simp [emitKeysAux, h]
  | cons b l ih =>
    simp only [List.cons_append, emitKeysAux]
    by_cases h : keyCount r (r b) pref = m <;>
      simp [h, ih (pref ++ [b]), List.append_assoc]

theorem emitKeys_append_singleton (r : α → κ) (m : Nat) (l : List α) (a : α) :
    emitKeys r m (l ++ [a]) =
      emitKeys r m l ++ (if keyCount r (r a) l = m then [r a] else []) := by
  simpa [emitKeys] using emitKeysAux_append r m [] l a

theorem mem_emitKeys (r : α → κ) (m : Nat) (k : κ) (l : List α) :
    k ∈ emitKeys r m l ↔ m + 1 ≤ keyCount r k l := by
  induction l using List.reverseRecOn with
  | nil => simp [emitKeys, emitKeysAux, keyCount, keyFilter]
  | append_singleton l a ih =>
    rw [emitKeys_append_singleton, keyCount_append_singleton]
    by_cases hk : r a = k
    · subst hk
      by_cases h : keyCount r (r a) l = m <;>
        simp [h, ih] <;> omega
    · have hk2 : ¬k = r a := fun hh => hk hh.symm
      by_cases h : keyCount r (r a) l = m <;> simp [h, ih, hk, hk2]

theorem emitKeys_nodup (r : α → κ) (m : Nat) (l : List α) : (emitKeys r m l).Nodup := by
  induction l using List.reverseRecOn with
  | nil => simp [emitKeys, emitKeysAux]
  | append_singleton l a ih =>
    rw [emitKeys_append_singleton]
    by_cases h : keyCount r (r a) l = m
    · refine List.Nodup.append ih (by simp [h]) ?_
      intro k hk hk2
      rw [if_pos h] at hk2
      simp only [List.mem_singleton] at hk2
      subst hk2
      have := (mem_emitKeys r m _ l).mp hk
      omega
    · simpa [h] using ih

theorem lookupA_mapKeys (ks : List κ) (f : κ → List α) (k : κ) :
    lookupA k (ks.map (fun x => (x, f x))) = if k ∈ ks then some (f k) else none := by
  induction ks with
  | nil => simp [lookupA]
  | cons k0 ks ih =>
    simp only [List.map_cons, lookupA]
    by_cases h : k0 = k
    · subst h
      simp
    · have h2 : ¬k = k0 := fun hh => h hh.symm
      simp [h, h2, ih]

theorem updateA_mapKeys_not_mem (ks : List κ) (f : κ → List α) (k : κ) (v : List α)
    (hk : k ∉ ks) :
    updateA k v (ks.map (fun x => (x, f x))) = ks.map (fun x => (x, f x)) ++ [(k, v)] := by
  induction ks with
  | nil => simp [updateA]
  | cons k0 ks ih =>
    have h : k0 ≠ k := fun hh => hk (by simp [hh])
    have hk2 : k ∉ ks := fun hh => hk (List.mem_cons_of_mem _ hh)
    simp [updateA, h, ih hk2]

theorem updateA_mapKeys_mem (ks : List κ) (f : κ → List α) (k : κ) (v : List α)
    (hnd : ks.Nodup) (hk : k ∈ ks) :
    updateA k v (ks.map (fun x => (x, f x))) =
      ks.map (fun x => (x, if x = k then v else f x)) := by
  induction ks with
  | nil => cases hk
  | cons k0 ks ih =>
    rcases List.mem_cons.mp hk with h | h
    · subst h
      have htail : ∀ x ∈ ks, (x, if x = k then v else f x) = (x, f x) := by
        intro x hx
        have hxk : x ≠ k := by
          rintro rfl
          exact (List.nodup_cons.mp hnd).1 hx
        simp [hxk]
      simp [updateA, List.map_congr_left htail]
    · have hne : k0 ≠ k := by
        rintro rfl
        exact (List.nodup_cons.mp hnd).1 h
      simp only [List.map_cons, updateA, if_neg hne]
      rw [ih (List.nodup_cons.mp hnd).2 h]

theorem sum_map_exchange (ks : List κ) (F G : κ → Nat) (k : κ)
    (hnd : ks.Nodup) (hk : k ∈ ks) (h : ∀ x ∈ ks, x ≠ k → F x = G x) :
    (ks.map G).sum + F k = (ks.map F).sum + G k := by
  induction ks with
  | nil => cases hk
  | cons k0 ks ih =>
    rcases List.mem_cons.mp hk with hh | hh
    · subst hh
      have htail : ∀ x ∈ ks, F x = G x := by
        intro x hx
        refine h x (List.mem_cons_of_mem _ hx) ?_
        rintro rfl
        exact (List.nodup_cons.mp hnd).1 hx
      have : (ks.map F) = ks.map G := List.map_congr_left htail
      simp only [List.map_cons, List.sum_cons, this]
      omega
    · have hne : k0 ≠ k := by
        rintro rfl
        exact (List.nodup_cons.mp hnd).1 hh
      have hF : F k0 = G k0 := h k0 (List.mem_cons_self _ _) hne
      have ihh := ih (List.nodup_cons.mp hnd).2 hh
        (fun x hx hxk => h x (List.mem_cons_of_mem _ hx) hxk)
      simp only [List.map_cons, List.sum_cons]
      omega

theorem gWeight_succ (m c : Nat) :
    gWeight m (c + 1) =
      gWeight m c + (if c = m then m else 0) + (if m ≤ c then 1 else 0) := by
  unfold gWeight
  split_ifs <;> omega

/-- Canonical description of the `group` loop state after the prefix
`pref` of the input has been processed: the dict holds, per key in
first-occurrence order, all prefix items with that key; emission has
happened exactly per `emitKeys`; and the counters are determined by the
per-key counts. -/
def GCanon (r : α → κ) (m : Nat) (pref : List α) (s : GroupState κ α) : Prop :=
  s.itemsByKey = (firstKeys r pref).map (fun k => (k, keyFilter r k pref)) ∧
  s.emittedKeys = emitKeys r m pref ∧
  s.itemsCount = pref.length ∧
  s.groupedCount = ((firstKeys r pref).map (fun k => gWeight m (keyCount r k pref))).sum

theorem gCanon_init (r : α → κ) (m : Nat) :
    GCanon r m [] (⟨[], [], 0, 0⟩ : GroupState κ α) := by
  refine ⟨?_, ?_, rfl, ?_⟩ <;> simp [firstKeys, emitKeys, emitKeysAux]

theorem gCanon_step (r : α → κ) (m : Nat) (pref : List α) (s : GroupState κ α) (a : α)
    (h : GCanon r m pref s) : GCanon r m (pref ++ [a]) (gStep r m s a) := by
  obtain ⟨hby, hem, hic, hgc⟩ := h
  have hnd := firstKeys_nodup r pref
  by_cases hmem : r a ∈ firstKeys r pref
  · -- existing bucket
    have hcur : (lookupA (r a) s.itemsByKey).getD [] = keyFilter r (r a) pref := by
      rw [hby, lookupA_mapKeys, if_pos hmem, Option.getD_some]
    have hlen : ((lookupA (r a) s.itemsByKey).getD []).length = keyCount r (r a) pref := by
      rw [hcur]; rfl
    have hfk : firstKeys r (pref ++ [a]) = firstKeys r pref := by
      rw [firstKeys_append_singleton, if_pos hmem]
    refine ⟨?_, ?_, ?_, ?_⟩
    · show updateA (r a) _ s.itemsByKey = _
      rw [hcur, hby, updateA_mapKeys_mem _ _ _ _ hnd hmem, hfk]
      refine List.map_congr_left ?_
      intro x hx
      by_cases hxa : x = r a
      · subst hxa
        simp [keyFilter_append, keyFilter_singleton]
      · have : ¬r a = x := fun hh => hxa hh.symm
        simp [hxa, keyFilter_append, keyFilter_singleton, this]
    · show (if _ = m then s.emittedKeys ++ [r a] else s.emittedKeys) = _
      rw [hlen, hem, emitKeys_append_singleton]
      by_cases hc : keyCount r (r a) pref = m <;> simp [hc]
    · show s.itemsCount + 1 = _
      simp [hic]
    · show s.groupedCount + _ + _ = _
      rw [hfk, hlen, hgc]
      have hex := sum_map_exchange (firstKeys r pref)
        (fun k => gWeight m (keyCount r k (pref ++ [a])))
        (fun k => gWeight m (keyCount r k pref)) (r a) hnd hmem
        (by
          intro x hx hxa
          have : ¬r a = x := fun hh => hxa hh.symm
          simp [keyCount_append_singleton, this])
      have hex2 : (List.map (fun k => gWeight m (keyCount r k pref)) (firstKeys r pref)).sum
            + gWeight m (keyCount r (r a) (pref ++ [a])) =
          (List.map (fun k => gWeight m (keyCount r k (pref ++ [a]))) (firstKeys r pref)).sum
            + gWeight m (keyCount r (r a) pref) := hex
      have hsucc : gWeight m (keyCount r (r a) (pref ++ [a])) =
          gWeight m (keyCount r (r a) pref) +
            (if keyCount r (r a) pref = m then m else 0) +
            (if m ≤ keyCount r (r a) pref then 1 else 0) := by
        rw [keyCount_append_singleton, if_pos rfl, gWeight_succ]
      omega
  · -- fresh bucket
    have hfil : keyFilter r (r a) pref = [] := by
      rw [keyFilter_eq_nil_iff]
      exact fun hh => hmem ((mem_firstKeys r (r a) pref).mpr hh)
    have hcnt : keyCount r (r a) pref = 0 := by
      simp [keyCount, hfil]
    have hcur : (lookupA (r a) s.itemsByKey).getD [] = [] := by
      rw [hby, lookupA_mapKeys, if_neg hmem, Option.getD_none]
    have hlen : ((lookupA (r a) s.itemsByKey).getD []).length = 0 := by
      rw [hcur]; rfl
    have hfk : firstKeys r (pref ++ [a]) = firstKeys r pref ++ [r a] := by
      rw [firstKeys_append_singleton, if_neg hmem]
    refine ⟨?_, ?_, ?_, ?_⟩
    · show updateA (r a) _ s.itemsByKey = _
      rw [hcur, hby, updateA_mapKeys_not_mem _ _ _ _ hmem, hfk]
      rw [List.map_append]
      congr 1
      · refine List.map_congr_left ?_
        intro x hx
        have hxa : ¬r a = x := by
          rintro rfl
          exact hmem hx
        simp [keyFilter_append, keyFilter_singleton, hxa]
      · simp [keyFilter_append, keyFilter_singleton, hfil]
    · show (if _ = m then s.emittedKeys ++ [r a] else s.emittedKeys) = _
      rw [hlen, hem, emitKeys_append_singleton, hcnt]
      by_cases hc : 0 = m <;> simp [hc]
    · show s.itemsCount + 1 = _
      simp [hic]
    · show s.groupedCount + _ + _ = _
      rw [hfk, hlen, hgc, List.map_append, List.sum_append]
      have heq : List.map (fun k => gWeight m (keyCount r k (pref ++ [a]))) (firstKeys r pref) =
          List.map (fun k => gWeight m (keyCount r k pref)) (firstKeys r pref) := by
        refine List.map_congr_left ?_
        intro x hx
        have hxa : ¬r a = x := by
          rintro rfl
          exact hmem hx
        simp [keyCount_append_singleton, hxa]
      rw [heq]
      have hnew : keyCount r (r a) (pref ++ [a]) = 1 := by
        rw [keyCount_append_singleton, hcnt, if_pos rfl]
      have : gWeight m 1 = (if 0 = m then m else 0) + (if m ≤ 0 then 1 else 0) := by
        unfold gWeight
        split_ifs <;> omega
      simp [hnew, this]
      omega

theorem gCanon_run (r : α → κ) (m : Nat) (items : List α) :
    GCanon r m items (groupRun items r m) := by
  suffices h : ∀ (l pref : List α) (s : GroupState κ α),
      GCanon r m pref s → GCanon r m (pref ++ l) (l.foldl (gStep r m) s) by
    simpa using h items [] ⟨[], [], 0, 0⟩ (gCanon_init r m)
  intro l
  induction l with
  | nil => intro pref s h; simpa using h
  | cons a l ih =>
    intro pref s h
    have := ih (pref ++ [a]) (gStep r m s a) (gCanon_step r m pref s a h)
    simpa [List.append_assoc] using this

theorem filterMap_of_forall_some {β : Type u} {γ : Type v} (l : List β)
    (f : β → Option γ) (g : β → γ) (h : ∀ x ∈ l, f x = some (g x)) :
    l.filterMap f = l.map g := by
  induction l with
  | nil => rfl
  | cons b l ih =>
    rw [List.filterMap_cons, h b (List.mem_cons_self _ _), List.map_cons,
      ih (fun x hx => h x (List.mem_cons_of_mem _ hx))]

/-- The groups emitted by `group` are, in emission order, the final
contents of the emitted buckets: all input items sharing the emitted key,
in input order. -/
theorem group_out_eq (items : List α) (r : α → κ) (m : Nat) :
    (group items r m).2.2 = (emitKeys r m items).map (fun k => keyFilter r k items) := by
  obtain ⟨hby, hem, hic, hgc⟩ := gCanon_run r m items
  show (groupRun items r m).emittedKeys.filterMap
      (fun k => lookupA k (groupRun items r m).itemsByKey) = _
  rw [hem, hby]
  refine filterMap_of_forall_some _ _ _ ?_
  intro k hk
  have hcnt := (mem_emitKeys r m k items).mp hk
  have hne : keyFilter r k items ≠ [] := by
    intro hnil
    have : keyCount r k items = 0 := by simp [keyCount, hnil]
    omega
  have hmem : k ∈ firstKeys r items := by
    rw [mem_firstKeys]
    by_contra hc
    exact hne ((keyFilter_eq_nil_iff r k items).mpr hc)
  rw [lookupA_mapKeys, if_pos hmem]

theorem group_items_count (items : List α) (r : α → κ) (m : Nat) :
    (group items r m).1 = items.length :=
  (gCanon_run r m items).2.2.1

theorem group_grouped_count (items : List α) (r : α → κ) (m : Nat) :
    (group items r m).2.1 =
      ((firstKeys r items).map (fun k => gWeight m (keyCount r k items))).sum :=
  (gCanon_run r m items).2.2.2

/-- Every member of an emitted `group` bucket is an input item. -/
theorem group_mem_subset (items : List α) (r : α → κ) (m : Nat) (g : List α)
    (hg : g ∈ (group items r m).2.2) (x : α) (hx : x ∈ g) : x ∈ items := by
  rw [group_out_eq] at hg
  obtain ⟨k, _, rfl⟩ := List.mem_map.mp hg
  exact List.mem_of_mem_filter hx

end GroupLemmas

/-! ## The `selector` loop -/

section SelectorLemmas

variable {α : Type u}

theorem getA_mem (l : List α) (i : Nat) (b : α) (h : getA l i = some b) : b ∈ l := by
  induction l generalizing i with
  | nil => cases h
  | cons c l ih =>
    cases i with
    | zero =>
      simp [getA] at h
      simp [h]
    | succ n => exact List.mem_cons_of_mem _ (ih n h)

theorem getA_append_of_some (l1 l2 : List α) (i : Nat) (b : α) (h : getA l1 i = some b) :
    getA (l1 ++ l2) i = some b := by
  induction l1 generalizing i with
  | nil => cases h
  | cons c l ih =>
    cases i with
    | zero => simpa [getA] using h
    | succ n => exact ih n h

theorem getA_append_self (l : List α) (b : α) : getA (l ++ [b]) l.length = some b := by
  induction l with
  | nil => rfl
  | cons c l ih => simpa [getA] using ih

theorem getA_append_singleton_cases (l : List α) (c b : α) (i : Nat)
    (h : getA (l ++ [c]) i = some b) :
    getA l i = some b ∨ (i = l.length ∧ b = c) := by
  induction l generalizing i with
  | nil =>
    cases i with
    | zero =>
      simp [getA] at h
      simp [h.symm]
    | succ n => cases n <;> cases h
  | cons d l ih =>
    cases i with
    | zero => exact Or.inl h
    | succ n =>
      rcases ih n h with hh | hh
      · exact Or.inl hh
      · right
        simp [hh.1, hh.2]

theorem getA_setA_self (l : List α) (i : Nat) (b c : α) (h : getA l i = some c) :
    getA (setA l i b) i = some b := by
  induction l generalizing i with
  | nil => cases h
  | cons d l ih =>
    cases i with
    | zero => rfl
    | succ n => exact ih n h

theorem getA_setA_ne (l : List α) (i j : Nat) (b : α) (h : i ≠ j) :
    getA (setA l i b) j = getA l j := by
  induction l generalizing i j with
  | nil => cases i <;> rfl
  | cons d l ih =>
    cases i with
    | zero =>
      cases j with
      | zero => exact absurd rfl h
      | succ n => rfl
    | succ n =>
      cases j with
      | zero => rfl
      | succ k => exact ih n k (fun hh => h (by simp [hh]))

theorem findIdxA_none_iff (p : α → Bool) (l : List α) :
    findIdxA p l = none ↔ ∀ x ∈ l, p x = false := by
  induction l with
  | nil => simp [findIdxA]
  | cons a l ih =>
    by_cases h : p a = true
    · simp [findIdxA, h]
    · simp [findIdxA, h, Option.map_eq_none', ih]

theorem findIdxA_some_getA (p : α → Bool) (l : List α) (i : Nat)
    (h : findIdxA p l = some i) : ∃ b, getA l i = some b ∧ p b = true := by
  induction l generalizing i with
  | nil => cases h
  | cons a l ih =>
    by_cases hp : p a = true
    · simp only [findIdxA, if_pos hp, Option.some.injEq] at h
      subst h
      exact ⟨a, rfl, hp⟩
    · simp only [findIdxA, if_neg hp, Option.map_eq_some'] at h
      obtain ⟨j, hj, rfl⟩ := h
      exact ih j hj

theorem findIdxA_some_earlier (p : α → Bool) (l : List α) (i : Nat)
    (h : findIdxA p l = some i) (j : Nat) (hj : j < i) (c : α)
    (hc : getA l j = some c) : p c = false := by
  induction l generalizing i j with
  | nil => cases hc
  | cons a l ih =>
    by_cases hp : p a = true
    · simp only [findIdxA, if_pos hp, Option.some.injEq] at h
      omega
    · simp only [findIdxA, if_neg hp, Option.map_eq_some'] at h
      obtain ⟨k, hk, rfl⟩ := h
      cases j with
      | zero =>
        simp only [getA, Option.some.injEq] at hc
        subst hc
        simpa using hp
      | succ n => exact ih k hk n (by omega) hc

/-- The comparator behaves as an equivalence on the elements of `items`
(what `bytecmp` satisfies on any well-formed record set). -/
def CompEquivOn (comp : α → α → Bool) (items : List α) : Prop :=
  (∀ a ∈ items, comp a a = true) ∧
  (∀ a ∈ items, ∀ b ∈ items, comp a b = comp b a) ∧
  (∀ a ∈ items, ∀ b ∈ items, ∀ c ∈ items,
    comp a b = true → comp b c = true → comp a c = true)

/-- Loop invariant of `selector` after processing the prefix `pref`:
every bucket holds exactly the prefix items matching its first member (in
order), first members of distinct buckets never match, every prefix item
sits in some bucket, and every emitted index points at a bucket that has
exceeded `m` members. -/
def SelInv (comp : α → α → Bool) (m : Nat) (pref : List α) (s : SelState α) : Prop :=
  (∀ i b, getA s.buckets i = some b → bucketList b = pref.filter (fun x => comp x b.1)) ∧
  (∀ i j bi bj, i < j → getA s.buckets i = some bi → getA s.buckets j = some bj →
    comp bj.1 bi.1 = false) ∧
  (∀ x ∈ pref, ∃ i b, getA s.buckets i = some b ∧ x ∈ bucketList b) ∧
  (∀ i ∈ s.emittedIdx, ∃ b, getA s.buckets i = some b ∧ m + 1 ≤ (bucketList b).length)

theorem getA_lt_length (l : List α) (i : Nat) (b : α) (h : getA l i = some b) :
    i < l.length := by
  induction l generalizing i with
  | nil => cases h
  | cons c l ih =>
    cases i with
    | zero => simp
    | succ n => simpa using ih n h

theorem selInv_init (comp : α → α → Bool) (m : Nat) :
    SelInv comp m [] (⟨[], [], 0, 0⟩ : SelState α) := by
  refine ⟨?_, ?_, ?_, ?_⟩
  · intro i b h
    cases i <;> cases h
  · intro i j bi bj hij hgi hgj
    cases i <;> cases hgi
  · intro x hx
    cases hx
  · intro i hi
    cases hi

theorem head_mem_of_getA (comp : α → α → Bool) (m : Nat) (pref : List α) (s : SelState α)
    (hinv : SelInv comp m pref s) (i : Nat) (b : α × List α)
    (hb : getA s.buckets i = some b) : b.1 ∈ pref := by
  have h1 := hinv.1 i b hb
  have : b.1 ∈ bucketList b := by simp [bucketList]
  rw [h1] at this
  exact List.mem_of_mem_filter this

theorem selInv_step (comp : α → α → Bool) (m : Nat) (items pref : List α) (a : α)
    (heq : CompEquivOn comp items) (hpref : ∀ x ∈ pref, x ∈ items) (ha : a ∈ items)
    (s : SelState α) (hinv : SelInv comp m pref s) :
    SelInv comp m (pref ++ [a]) (selStep comp m s a) := by
  obtain ⟨hb1, hb2, hb3, hb4⟩ := hinv
  obtain ⟨hrefl, hsymm, htrans⟩ := heq
  unfold selStep
  cases hfind : findIdxA (fun b => comp a b.1) s.buckets with
  | none =>
    have hnomatch : ∀ b ∈ s.buckets, comp a b.1 = false :=
      fun b hb => (findIdxA_none_iff _ _).mp hfind b hb
    have hprefno : ∀ x ∈ pref, comp x a = false := by
      intro x hx
      obtain ⟨i, b, hgb, hxb⟩ := hb3 x hx
      have hhead : b.1 ∈ pref := head_mem_of_getA comp m pref s ⟨hb1, hb2, hb3, hb4⟩ i b hgb
      have hxhead : comp x b.1 = true := by
        have := hb1 i b hgb
        rw [this] at hxb
        exact of_decide_eq_true (by simpa using (List.mem_filter.mp hxb).2)
      by_contra hc
      have hxa : comp x a = true := by
        cases hxa2 : comp x a
        · exact absurd hxa2 hc
        · rfl
      have hax : comp a x = true := by
        rw [hsymm a ha x (hpref x hx)]
        exact hxa
      have : comp a b.1 = true :=
        htrans a ha x (hpref x hx) b.1 (hpref _ hhead) hax hxhead
      rw [hnomatch b (getA_mem _ _ _ hgb)] at this
      cases this
    refine ⟨?_, ?_, ?_, ?_⟩
    · intro i b hgb
      rcases getA_append_singleton_cases _ _ _ _ hgb with hh | ⟨rfl, rfl⟩
      · rw [hb1 i b hh, List.filter_append]
        have : comp a b.1 = false := hnomatch b (getA_mem _ _ _ hh)
        simp [this]
      · show bucketList (a, []) = _
        rw [List.filter_append]
        have h1 : pref.filter (fun x => comp x (a, ([] : List α)).1) = [] := by
          rw [List.filter_eq_nil_iff]
          intro x hx
          simp [hprefno x hx]
        simp only [h1, List.nil_append]
        simp [bucketList, hrefl a ha]
    · intro i j bi bj hij hgi hgj
      rcases getA_append_singleton_cases _ _ _ _ hgj with hh | ⟨rfl, rfl⟩
      · have hgi2 : getA s.buckets i = some bi := by
          rcases getA_append_singleton_cases _ _ _ _ hgi with h2 | ⟨rfl, rfl⟩
          · exact h2
          · exact absurd (getA_lt_length _ _ _ hh) (by omega)
        exact hb2 i j bi bj hij hgi2 hh
      · rcases getA_append_singleton_cases _ _ _ _ hgi with h2 | ⟨rfl, rfl⟩
        · exact hnomatch bi (getA_mem _ _ _ h2)
        · omega
    · intro x hx
      rcases List.mem_append.mp hx with hh | hh
      · obtain ⟨i, b, hgb, hxb⟩ := hb3 x hh
        exact ⟨i, b, getA_append_of_some _ _ _ _ hgb, hxb⟩
      · simp only [List.mem_singleton] at hh
        subst hh
        exact ⟨s.buckets.length, (x, []), getA_append_self _ _, by simp [bucketList]⟩
    · intro i hi
      obtain ⟨b, hgb, hlb⟩ := hb4 i hi
      exact ⟨b, getA_append_of_some _ _ _ _ hgb, hlb⟩
  | some i =>
    obtain ⟨bi, hgbi, hpbi⟩ := findIdxA_some_getA _ _ _ hfind
    simp only [hgbi, Option.getD_some]
    have hihead : bi.1 ∈ pref := head_mem_of_getA comp m pref s ⟨hb1, hb2, hb3, hb4⟩ i bi hgbi
    have hother : ∀ j bj, j ≠ i → getA s.buckets j = some bj → comp a bj.1 = false := by
      intro j bj hji hgbj
      rcases Nat.lt_or_ge j i with hlt | hge
      · exact findIdxA_some_earlier _ _ _ hfind j hlt bj hgbj
      · have hij : i < j := by omega
        by_contra hc
        have habj : comp a bj.1 = true := by
          cases h2 : comp a bj.1
          · exact absurd h2 hc
          · rfl
        have hjhead : bj.1 ∈ pref := head_mem_of_getA comp m pref s ⟨hb1, hb2, hb3, hb4⟩ j bj hgbj
        have hbia : comp bi.1 a = true := by
          rw [hsymm bi.1 (hpref _ hihead) a ha]
          exact hpbi
        have : comp bi.1 bj.1 = true :=
          htrans bi.1 (hpref _ hihead) a ha bj.1 (hpref _ hjhead) hbia habj
        have hfalse := hb2 i j bi bj hij hgbi hgbj
        rw [hsymm bj.1 (hpref _ hjhead) bi.1 (hpref _ hihead)] at hfalse
        rw [hfalse] at this
        cases this
    have hnewlist : bucketList (bi.1, bi.2 ++ [a]) = bucketList bi ++ [a] := by
      simp [bucketList]
    refine ⟨?_, ?_, ?_, ?_⟩
    · intro j b hgb
      by_cases hji : j = i
      · subst hji
        rw [getA_setA_self _ _ _ _ hgbi] at hgb
        cases hgb
        rw [hnewlist, hb1 j bi hgbi, List.filter_append]
        have : comp a bi.1 = true := hpbi
        simp [bucketList, this]
      · rw [getA_setA_ne _ _ _ _ (fun hh => hji hh.symm)] at hgb
        rw [hb1 j b hgb, List.filter_append]
        have : comp a b.1 = false := hother j b hji hgb
        simp [this]
    · intro j k bj bk hjk hgj hgk
      have hj2 : getA s.buckets j = some (if j = i then bi else bj) := by
        by_cases hji : j = i
        · subst hji
          simpa using hgbi
        · rw [getA_setA_ne _ _ _ _ (fun hh => hji hh.symm)] at hgj
          simpa [hji] using hgj
      have hk2 : getA s.buckets k = some (if k = i then bi else bk) := by
        by_cases hki : k = i
        · subst hki
          simpa using hgbi
        · rw [getA_setA_ne _ _ _ _ (fun hh => hki hh.symm)] at hgk
          simpa [hki] using hgk
      have hheads_j : bj.1 = (if j = i then bi else bj).1 := by
        by_cases hji : j = i
        · subst hji
          rw [getA_setA_self _ _ _ _ hgbi] at hgj
          cases hgj
          simp
        · simp [hji]
      have hheads_k : bk.1 = (if k = i then bi else bk).1 := by
        by_cases hki : k = i
        · subst hki
          rw [getA_setA_self _ _ _ _ hgbi] at hgk
          cases hgk
          simp
        · simp [hki]
      rw [hheads_j, hheads_k]
      exact hb2 j k _ _ hjk hj2 hk2
    · intro x hx
      rcases List.mem_append.mp hx with hh | hh
      · obtain ⟨j, b, hgb, hxb⟩ := hb3 x hh
        by_cases hji : j = i
        · subst hji
          refine ⟨j, (bi.1, bi.2 ++ [a]), getA_setA_self _ _ _ _ hgbi, ?_⟩
          rw [hgb] at hgbi
          cases hgbi
          rw [hnewlist]
          exact List.mem_append_left _ hxb
        · exact ⟨j, b, by rw [getA_setA_ne _ _ _ _ (fun hh2 => hji hh2.symm)]; exact hgb, hxb⟩
      · simp only [List.mem_singleton] at hh
        refine ⟨i, (bi.1, bi.2 ++ [a]), getA_setA_self _ _ _ _ hgbi, ?_⟩
        rw [hnewlist, hh]
        simp
    · intro j hj
      have hlen : (bucketList bi).length = (bucketList bi).length := rfl
      by_cases hcond : (bucketList bi).length = m
      · simp only [if_pos hcond] at hj
        rcases List.mem_append.mp hj with hh | hh
        · obtain ⟨b, hgb, hlb⟩ := hb4 j hh
          by_cases hji : j = i
          · subst hji
            refine ⟨(bi.1, bi.2 ++ [a]), getA_setA_self _ _ _ _ hgbi, ?_⟩
            rw [hgb] at hgbi
            cases hgbi
            rw [hnewlist]
            simp only [List.length_append, List.length_singleton]
            omega
          · exact ⟨b, by rw [getA_setA_ne _ _ _ _ (fun hh2 => hji hh2.symm)]; exact hgb, hlb⟩
        · simp only [List.mem_singleton] at hh
          subst hh
          refine ⟨(bi.1, bi.2 ++ [a]), getA_setA_self _ _ _ _ hgbi, ?_⟩
          rw [hnewlist]
          simp only [List.length_append, List.length_singleton]
          omega
      · simp only [if_neg hcond] at hj
        obtain ⟨b, hgb, hlb⟩ := hb4 j hj
        by_cases hji : j = i
        · subst hji
          refine ⟨(bi.1, bi.2 ++ [a]), getA_setA_self _ _ _ _ hgbi, ?_⟩
          rw [hgb] at hgbi
          cases hgbi
          rw [hnewlist]
          simp only [List.length_append, List.length_singleton]
          omega
        · exact ⟨b, by rw [getA_setA_ne _ _ _ _ (fun hh2 => hji hh2.symm)]; exact hgb, hlb⟩

theorem selInv_run (comp : α → α → Bool) (m : Nat) (items : List α)
    (heq : CompEquivOn comp items) :
    SelInv comp m items (selectorRun items comp m) := by
  suffices h : ∀ (l pref : List α), (∀ x ∈ pref, x ∈ items) → (∀ x ∈ l, x ∈ items) →
      ∀ s : SelState α, SelInv comp m pref s →
        SelInv comp m (pref ++ l) (l.foldl (selStep comp m) s) by
    simpa using h items [] (by simp) (fun x hx => hx) ⟨[], [], 0, 0⟩ (selInv_init comp m)
  intro l
  induction l with
  | nil =>
    intro pref _ _ s h
    simpa using h
  | cons a l ih =>
    intro pref hpref hl s h
    have hstep := selInv_step comp m items pref a heq hpref
      (hl a (List.mem_cons_self _ _)) s h
    have hpref2 : ∀ x ∈ pref ++ [a], x ∈ items := by
      intro x hx
      rcases List.mem_append.mp hx with h1 | h1
      · exact hpref x h1
      · simp only [List.mem_singleton] at h1
        rw [h1]
        exact hl a (List.mem_cons_self _ _)
    have := ih (pref ++ [a]) hpref2 (fun x hx => hl x (List.mem_cons_of_mem _ hx)) _ hstep
    simpa [List.append_assoc] using this

/-- Every group `selector` emits is the final content of its (aliased)
bucket: its first member `x` heads the group, the group consists of
exactly the input items matching `x` in input order, and the bucket has
grown past `m` members. -/
theorem selector_sound (items : List α) (comp : α → α → Bool) (m : Nat)
    (heq : CompEquivOn comp items) (g : List α)
    (hg : g ∈ (selector items comp m).2.2) :
    ∃ x, g.head? = some x ∧ g = items.filter (fun y => comp y x) ∧ m + 1 ≤ g.length := by
  obtain ⟨hb1, _, _, hb4⟩ := selInv_run comp m items heq
  simp only [selector, List.mem_filterMap] at hg
  obtain ⟨i, hi, hmap⟩ := hg
  rw [Option.map_eq_some'] at hmap
  obtain ⟨b, hgb, rfl⟩ := hmap
  obtain ⟨b2, hgb2, hlen⟩ := hb4 i hi
  rw [hgb] at hgb2
  cases hgb2
  exact ⟨b.1, by simp [bucketList], hb1 i b hgb, hlen⟩

/-- Bucket members always come from the processed prefix (no comparator
assumptions needed). -/
def SelSub (pref : List α) (s : SelState α) : Prop :=
  ∀ i b, getA s.buckets i = some b → ∀ x ∈ bucketList b, x ∈ pref

theorem selSub_step (comp : α → α → Bool) (m : Nat) (pref : List α) (a : α)
    (s : SelState α) (h : SelSub pref s) : SelSub (pref ++ [a]) (selStep comp m s a) := by
  unfold selStep
  cases hfind : findIdxA (fun b => comp a b.1) s.buckets with
  | none =>
    intro i b hgb x hx
    rcases getA_append_singleton_cases _ _ _ _ hgb with hh | ⟨rfl, rfl⟩
    · exact List.mem_append_left _ (h i b hh x hx)
    · simp only [bucketList, List.mem_singleton] at hx
      simp [hx]
  | some i =>
    obtain ⟨bi, hgbi, _⟩ := findIdxA_some_getA _ _ _ hfind
    simp only [hgbi, Option.getD_some]
    intro j b hgb x hx
    by_cases hji : j = i
    · subst hji
      rw [getA_setA_self _ _ _ _ hgbi] at hgb
      cases hgb
      have hx2 : x ∈ bucketList bi ++ [a] := by
        simpa [bucketList] using hx
      rcases List.mem_append.mp hx2 with hh | hh
      · exact List.mem_append_left _ (h j bi hgbi x hh)
      · simp only [List.mem_singleton] at hh
        rw [hh]
        simp
    · rw [getA_setA_ne _ _ _ _ (fun hh => hji hh.symm)] at hgb
      exact List.mem_append_left _ (h j b hgb x hx)

theorem selSub_run (items : List α) (comp : α → α → Bool) (m : Nat) :
    SelSub items (selectorRun items comp m) := by
  suffices h : ∀ (l pref : List α) (s : SelState α),
      SelSub pref s → SelSub (pref ++ l) (l.foldl (selStep comp m) s) by
    simpa using h items [] ⟨[], [], 0, 0⟩ (by intro i b hgb; cases i <;> cases hgb)
  intro l
  induction l with
  | nil =>
    intro pref s h
    simpa using h
  | cons a l ih =>
    intro pref s h
    have := ih (pref ++ [a]) _ (selSub_step comp m pref a s h)
    simpa [List.append_assoc] using this

/-- Every member of a group emitted by `selector` is an input item. -/
theorem selector_mem_subset (items : List α) (comp : α → α → Bool) (m : Nat)
    (g : List α) (hg : g ∈ (selector items comp m).2.2) (x : α) (hx : x ∈ g) :
    x ∈ items := by
  have hsub := selSub_run items comp m
  simp only [selector, List.mem_filterMap] at hg
  obtain ⟨i, _, hmap⟩ := hg
  rw [Option.map_eq_some'] at hmap
  obtain ⟨b, hgb, rfl⟩ := hmap
  exact hsub i b hgb x hx

/-- A pair of items sharing a key passes `group` with `min_size = 1` as a
single emitted bucket holding both. -/
theorem group_pair {κ : Type v} [DecidableEq κ] (x y : α) (r : α → κ) (h : r x = r y) :
    (group [x, y] r 1).2.2 = [[x, y]] := by
  rw [group_out_eq]
  have h1 : keyCount r (r x) [] = 0 := rfl
  have h2 : keyCount r (r y) [x] = 1 := by
    simp [keyCount, keyFilter, h]
  have hemit : emitKeys r 1 [x, y] = [r y] := by
    show emitKeysAux r 1 [] [x, y] = [r y]
    rw [show ([x, y] : List α) = [x] ++ [y] by rfl]
    rw [show (emitKeysAux r 1 [] ([x] ++ [y])) = emitKeysAux r 1 [] [x] ++
      (if keyCount r (r y) ([] ++ [x]) = 1 then [r y] else []) from
        emitKeysAux_append r 1 [] [x] y]
    simp [emitKeysAux, h2, h1]
  rw [hemit]
  simp only [List.map_cons, List.map_nil]
  congr 1
  simp [keyFilter, h]

/-- A pair of mutually matching items passes `selector` with
`min_size = 2` without emitting anything: the emission check fires only
when a bucket already holds `min_size` members. -/
theorem selector_pair (x y : α) (comp : α → α → Bool) (h : comp y x = true) :
    selector [x, y] comp 2 = (2, 0, []) := by
  simp [selector, selectorRun, selStep, findIdxA, getA, setA, bucketList, h]

end SelectorLemmas

/-! ## `bytecmp` as an equivalence on well-formed record sets -/

/-- Records with the same `(st_dev, st_ino)` describe the same on-disk
file, so they report the same size and hold the same bytes.  Any record
set produced by a real scan satisfies this. -/
def FidConsistent (items : List Info) : Prop :=
  ∀ x ∈ items, ∀ y ∈ items, fileid x = fileid y →
    x.stat.st_size = y.stat.st_size ∧ x.content = y.content

theorem bytecmp_char (x y : Info)
    (h : fileid x = fileid y → x.stat.st_size = y.stat.st_size ∧ x.content = y.content) :
    bytecmp x y = (decide (x.stat.st_size = y.stat.st_size) && decide (x.content = y.content)) := by
  unfold bytecmp
  by_cases hs : x.stat.st_size = y.stat.st_size
  · by_cases hf : fileid x = fileid y
    · simp [hs, hf, (h hf).2]
    · simp [hs, hf]
  · simp [hs]

theorem bytecmp_refl (x : Info) : bytecmp x x = true := by
  simp [bytecmp, fileid]

theorem bytecmp_equivOn (items : List Info) (hfid : FidConsistent items) :
    CompEquivOn bytecmp items := by
  refine ⟨fun a _ => bytecmp_refl a, ?_, ?_⟩
  · intro a ha b hb
    rw [bytecmp_char a b (hfid a ha b hb), bytecmp_char b a (hfid b hb a ha)]
    congr 1
    · exact decide_eq_decide.mpr eq_comm
    · exact decide_eq_decide.mpr eq_comm
  · intro a ha b hb c hc h1 h2
    rw [bytecmp_char a b (hfid a ha b hb)] at h1
    rw [bytecmp_char b c (hfid b hb c hc)] at h2
    rw [bytecmp_char a c (hfid a ha c hc)]
    simp only [Bool.and_eq_true, decide_eq_true_eq] at h1 h2 ⊢
    exact ⟨h1.1.trans h2.1, h1.2.trans h2.2⟩

/-! ## Reading a file in chunks reads exactly its content -/

theorem readChunksAux_flatten (fuel : Nat) (l : List Nat) (h : l.length ≤ fuel) :
    (readChunksAux fuel l).flatten = l := by
  induction fuel generalizing l with
  | zero =>
    cases l with
    | nil => rfl
    | cons a l => simp at h
  | succ fuel ih =>
    cases l with
    | nil => rfl
    | cons a l =>
      have hlen : ((a :: l).drop CHUNK_SIZE).length ≤ fuel := by
        rw [List.length_drop]
        simp only [List.length_cons, CHUNK_SIZE] at h ⊢
        omega
      show ((a :: l).take CHUNK_SIZE :: readChunksAux fuel ((a :: l).drop CHUNK_SIZE)).flatten = _
      rw [List.flatten_cons, ih _ hlen, List.take_append_drop]

theorem foldl_append_flatten (ls : List (List Nat)) (acc : List Nat) :
    ls.foldl (fun a c => a ++ c) acc = acc ++ ls.flatten := by
  induction ls generalizing acc with
  | nil => simp
  | cons c ls ih => simp [ih, List.append_assoc]

/-- The chunked md5 loop digests exactly the file's bytes. -/
theorem md5_digests_content (digest : List Nat → String) (i : Info) :
    md5 digest i = digest i.content := by
  unfold md5 readChunks
  rw [foldl_append_flatten, List.nil_append, readChunksAux_flatten _ _ (Nat.le_refl _)]

/-! ## Pipeline member provenance -/

theorem stageReduce_subset {κ : Type v} [DecidableEq κ] (r : Info → κ)
    (gl : List (List Info)) (g : List Info) (hg : g ∈ stageReduce r gl)
    (x : Info) (hx : x ∈ g) : ∃ g0 ∈ gl, x ∈ g0 := by
  simp only [stageReduce, List.mem_flatMap] at hg
  obtain ⟨g0, hg0, hgg⟩ := hg
  exact ⟨g0, hg0, group_mem_subset g0 r 1 g hgg x hx⟩

theorem confirmedGroups_subset (digest : List Nat → String) (args : Args)
    (items : List Info) (g : List Info) (hg : g ∈ confirmedGroups digest args items)
    (x : Info) (hx : x ∈ g) : x ∈ items := by
  unfold confirmedGroups at hg
  simp only [List.mem_flatMap, stageExact] at hg
  obtain ⟨g3, hg3, hsel⟩ := hg
  have hx3 : x ∈ g3 := selector_mem_subset g3 bytecmp 2 g hsel x hx
  obtain ⟨g2, hg2, hx2⟩ := stageReduce_subset _ _ _ hg3 x hx3
  obtain ⟨g1, hg1, hx1⟩ := stageReduce_subset _ _ _ hg2 x hx2
  by_cases hrel : args.groupby_relative
  · simp only [if_pos hrel] at hg1
    obtain ⟨g0, hg0, hx0⟩ := stageReduce_subset _ _ _ hg1 x hx1
    simp only [List.mem_singleton] at hg0
    rw [hg0] at hx0
    exact hx0
  · simp only [if_neg hrel, List.mem_singleton] at hg1
    rw [hg1] at hx1
    exact hx1

/-! ## Counting emitted groups per key -/

theorem count_map_of_heads {α : Type u} {κ : Type v} [DecidableEq κ] [DecidableEq α]
    (ks : List κ) (f : κ → List α) (k : κ)
    (hinj : ∀ k2 ∈ ks, f k2 = f k → k2 = k) :
    (ks.map f).count (f k) = ks.count k := by
  induction ks with
  | nil => rfl
  | cons k0 ks ih =>
    have ihh := ih (fun k2 h2 => hinj k2 (List.mem_cons_of_mem _ h2))
    by_cases h : f k0 = f k
    · have hk0 : k0 = k := hinj k0 (List.mem_cons_self _ _) h
      subst hk0
      simp [List.count_cons, ihh, h]
    · have hk0 : k0 ≠ k := by
        rintro rfl
        exact h rfl
      have hk0s : ¬(k = k0) := fun hh => hk0 hh.symm
      have hfs : ¬(f k = f k0) := fun hh => h hh.symm
      simp [List.count_cons, ihh, hk0s, hfs]

theorem keyFilter_head_key {α : Type u} {κ : Type v} [DecidableEq κ]
    (r : α → κ) (k : κ) (l : List α) (x : α) (xs : List α)
    (h : keyFilter r k l = x :: xs) : r x = k := by
  have : x ∈ keyFilter r k l := by
    rw [h]
    exact List.mem_cons_self _ _
  have := List.mem_filter.mp this
  simpa using this.2

/-! ## The walk silently skips unreadable directories -/

mutual

/-- Whether a file record sits in the tree and every directory on its
chain, including its own, is readable. -/
def inReadTree (i : Info) : FSTree → Bool
  | .node readable files subs =>
    readable && (files.any (fun f => decide (f = i)) || inReadForest i subs)

/-- `inReadTree` over a list of subdirectories. -/
def inReadForest (i : Info) : List FSTree → Bool
  | [] => false
  | t :: ts => inReadTree i t || inReadForest i ts

end

mutual

theorem walkTree_false_ok (t : FSTree) :
    ∃ l, walkTree false t = .ok l ∧ ∀ i ∈ l, inReadTree i t = true := by
  cases t with
  | node readable files subs =>
    cases readable with
    | false => exact ⟨[], by simp [walkTree], by intro i hi; cases hi⟩
    | true =>
      obtain ⟨rest, hrest, hmem⟩ := walkForest_false_ok subs
      refine ⟨files ++ rest, ?_, ?_⟩
      · simp [walkTree, hrest]
      · intro i hi
        simp only [inReadTree, Bool.true_and]
        rcases List.mem_append.mp hi with hh | hh
        · have : files.any (fun f => decide (f = i)) = true :=
            List.any_eq_true.mpr ⟨i, hh, by simp⟩
          simp [this]
        · simp [hmem i hh]

theorem walkForest_false_ok (ts : List FSTree) :
    ∃ l, walkForest false ts = .ok l ∧ ∀ i ∈ l, inReadForest i ts = true := by
  cases ts with
  | nil => exact ⟨[], rfl, by intro i hi; cases hi⟩
  | cons t ts =>
    obtain ⟨l1, hl1, hm1⟩ := walkTree_false_ok t
    obtain ⟨l2, hl2, hm2⟩ := walkForest_false_ok ts
    refine ⟨l1 ++ l2, ?_, ?_⟩
    · simp [walkForest, hl1, hl2]
    · intro i hi
      simp only [inReadForest, Bool.or_eq_true]
      rcases List.mem_append.mp hi with hh | hh
      · exact Or.inl (hm1 i hh)
      · exact Or.inr (hm2 i hh)

end

/-! ## Concrete records used to evaluate the code -/

/-- A readable file, 5000 bytes by stat. -/
def fileGood : Info :=
  { path := "/root/good", relpath := "good"
    stat := { st_dev := 1, st_ino := 50, st_size := 5000, st_mtime_ns := 0 }
    content := [1, 2, 3] }

/-- A duplicate-sized file inside an unreadable directory. -/
def fileHidden : Info :=
  { path := "/root/secret/hidden", relpath := "secret/hidden"
    stat := { st_dev := 1, st_ino := 51, st_size := 5000, st_mtime_ns := 0 }
    content := [1, 2, 3] }

/-- A root whose subdirectory `secret` is unreadable. -/
def treeWithSecret : FSTree :=
  .node true [fileGood] [.node false [fileHidden] []]

/-- C4, counterexample: on a tree with an unreadable subdirectory holding
a file that would otherwise qualify, the scan returns normally with the
file silently missing — it does not fail.  (With a re-raising `onerror`
handler, which the source does not install, the same walk would fail.) -/
theorem unreadable_dir_silently_skipped_cx :
    scanItems 4096 9223372036854775807 false [treeWithSecret] = .ok [fileGood] ∧
    walkTree true treeWithSecret = .error PyErr.scanError := by
  constructor
  · simp [scanItems, walkTree, walkForest, treeWithSecret, sizeFilter, fileGood]
  · simp [walkTree, walkForest, treeWithSecret]

/-- C4, amended: the scan never raises on unreadable directories; it
silently skips them, and every record it returns lies on a fully readable
chain of one of the roots. -/
theorem scan_never_fails_skips_unreadable (minS maxS : Int) (roots : List FSTree) :
    ∃ l, scanItems minS maxS false roots = .ok l ∧
      l.all (fun i => roots.any (fun t => inReadTree i t)) = true := by
  induction roots with
  | nil => exact ⟨[], rfl, rfl⟩
  | cons t ts ih =>
    obtain ⟨l1, hl1, hm1⟩ := walkTree_false_ok t
    obtain ⟨l2, hl2, hall⟩ := ih
    refine ⟨sizeFilter minS maxS l1 ++ l2, ?_, ?_⟩
    · simp [scanItems, hl1, hl2]
    · rw [List.all_eq_true]
      intro i hi
      rcases List.mem_append.mp hi with hh | hh
      · simp only [sizeFilter] at hh
        have : i ∈ l1 := List.mem_of_mem_filter hh
        simp [List.any_cons, hm1 i this]
      · rw [List.all_eq_true] at hall
        have h2 := hall i hh
        simp only [List.any_cons, Bool.or_eq_true]
        right
        rw [List.any_eq_true] at h2 ⊢
        exact h2

/-! ## The merge loop produces no stdout lines -/

theorem mergeGroup_ok_no_echo (args : Args) (paths : List String) (g : List Info)
    (effs : List Effect) (h : mergeGroup args paths g = .ok effs) :
    ∀ e ∈ effs, e.isEcho = false := by
  unfold mergeGroup at h
  cases hbp : by_first_parent g paths <;> rw [hbp] at h <;> repeat' split at h
  all_goals first
    | exact Except.noConfusion h
    | ((try simp only [Except.ok.injEq] at h)
       subst h
       intro e he
       rcases List.mem_cons.mp he with rfl | hh
       · rfl
       · rw [List.mem_flatMap] at hh
         obtain ⟨i, _, hi⟩ := hh
         rcases List.mem_cons.mp hi with rfl | hi2
         · rfl
         · simp only [List.mem_singleton] at hi2
           subst hi2
           rfl)

theorem mergeAll_no_echo (args : Args) (paths : List String) (gl : List (List Info)) :
    ∀ e ∈ (mergeAll args paths gl).1, e.isEcho = false := by
  induction gl with
  | nil =>
    intro e he
    cases he
  | cons g gs ih =>
    intro e he
    unfold mergeAll at he
    cases hmg : mergeGroup args paths g with
    | error err =>
      rw [hmg] at he
      cases he
    | ok effs =>
      rw [hmg] at he
      simp only at he
      rcases List.mem_append.mp he with hh | hh
      · exact mergeGroup_ok_no_echo args paths g effs hmg e hh
      · exact ih e hh

/-- C8: dry-run prints exactly the stdout lines a real run prints (the
group lines are computed and printed before the dry-run branch), performs
no filesystem mutation (its whole trace is stdout lines), and aborts with
no exception. -/
theorem dry_run_no_mutation_same_output (digest : List Nat → String) (args : Args)
    (paths : List String) (items : List Info) :
    (mainEffects digest { args with dry_run := true } paths items).1 =
      ((mainEffects digest { args with dry_run := false } paths items).1).filter
        Effect.isEcho ∧
    (∀ e ∈ (mainEffects digest { args with dry_run := true } paths items).1,
      e.isEcho = true) ∧
    (mainEffects digest { args with dry_run := true } paths items).2 = none := by
  cases args with
  | mk dr nz gb mins maxs mg mt sm =>
    have hdry : mainEffects digest (Args.mk true nz gb mins maxs mg mt sm) paths items =
        ((confirmedGroups digest (Args.mk false nz gb mins maxs mg mt sm) items).map
          (fun g => Effect.echo (renderGroup g)), none) := rfl
    have hwet : mainEffects digest (Args.mk false nz gb mins maxs mg mt sm) paths items =
        ((confirmedGroups digest (Args.mk false nz gb mins maxs mg mt sm) items).map
            (fun g => Effect.echo (renderGroup g)) ++
          (mergeAll (Args.mk false nz gb mins maxs mg mt sm) paths
            (confirmedGroups digest (Args.mk false nz gb mins maxs mg mt sm) items)).1,
          (mergeAll (Args.mk false nz gb mins maxs mg mt sm) paths
            (confirmedGroups digest (Args.mk false nz gb mins maxs mg mt sm) items)).2) :=
      rfl
    show (mainEffects digest (Args.mk true nz gb mins maxs mg mt sm) paths items).1 = _ ∧
      (∀ e ∈ (mainEffects digest (Args.mk true nz gb mins maxs mg mt sm) paths items).1,
        e.isEcho = true) ∧
      (mainEffects digest (Args.mk true nz gb mins maxs mg mt sm) paths items).2 = none
    rw [hdry, hwet]
    refine ⟨?_, ?_, rfl⟩
    · rw [List.filter_append]
      have h1 : ((confirmedGroups digest (Args.mk false nz gb mins maxs mg mt sm) items).map
          (fun g => Effect.echo (renderGroup g))).filter Effect.isEcho =
          (confirmedGroups digest (Args.mk false nz gb mins maxs mg mt sm) items).map
            (fun g => Effect.echo (renderGroup g)) := by
        rw [List.filter_eq_self]
        intro e he
        obtain ⟨g, _, rfl⟩ := List.mem_map.mp he
        rfl
      have h2 : ((mergeAll (Args.mk false nz gb mins maxs mg mt sm) paths
          (confirmedGroups digest (Args.mk false nz gb mins maxs mg mt sm) items)).1).filter
            Effect.isEcho = [] := by
        rw [List.filter_eq_nil_iff]
        intro e he
        rw [mergeAll_no_echo _ _ _ e he]
        simp
      rw [h1, h2, List.append_nil]
    · intro e he
      obtain ⟨g, _, rfl⟩ := List.mem_map.mp he
      rfl

/-! ## Timestamp strategy evaluation (C2) -/

/-- The older file, under root A: mtime 100 ns. -/
def infoOldA : Info :=
  { path := "/A/x", relpath := "x"
    stat := { st_dev := 1, st_ino := 60, st_size := 5000, st_mtime_ns := 100 }
    content := [9] }

/-- The newer duplicate, under root B: mtime 200 ns. -/
def infoNewB : Info :=
  { path := "/B/x", relpath := "x"
    stat := { st_dev := 1, st_ino := 61, st_size := 5000, st_mtime_ns := 200 }
    content := [9] }

/-- C2: with `--mtime merge` the code applies the origin's own mtime
(100 ns), not the group's maximum (200 ns); with `--mtime newest` — an
accepted CLI choice — no branch sets `mtime_ns` (the dead branch tests
`"max"`, which argparse rejects), so `os.utime` receives `None` and the
run dies with a `TypeError`.  The unreachable `"max"` branch is the one
that would compute the maximum. -/
theorem mtime_merge_newest_not_maximum :
    mergeGroup { defaultArgs with merge := "order", mtime := "merge" } ["/A", "/B"]
        [infoOldA, infoNewB] =
      .ok [Effect.utime "/A/x" 100, Effect.remove "/B/x", Effect.link "/A/x" "/B/x"] ∧
    mergeGroup { defaultArgs with merge := "order", mtime := "newest" } ["/A", "/B"]
        [infoOldA, infoNewB] = .error PyErr.typeError ∧
    mergeGroup { defaultArgs with merge := "order", mtime := "max" } ["/A", "/B"]
        [infoOldA, infoNewB] =
      .ok [Effect.utime "/A/x" 200, Effect.remove "/B/x", Effect.link "/A/x" "/B/x"] := by
  refine ⟨?_, ?_, ?_⟩ <;> rfl

/-! ## Origin selection with no matching root (C5) -/

/-- A duplicate pair living outside every given root. -/
def infoStray1 : Info :=
  { path := "/c/1", relpath := "1"
    stat := { st_dev := 1, st_ino := 70, st_size := 5000, st_mtime_ns := 0 }
    content := [4] }

/-- Second member of the stray pair. -/
def infoStray2 : Info :=
  { path := "/c/2", relpath := "2"
    stat := { st_dev := 1, st_ino := 71, st_size := 5000, st_mtime_ns := 0 }
    content := [4] }

/-- C5, counterexample: when no group member's path starts with any root,
`by_first_parent` silently returns a missing origin (`None`), and the run
then dies with an uncaught `TypeError` when the missing origin is used —
there is no OriginSelectionError anywhere in the code. -/
theorem no_root_match_missing_origin_cx :
    by_first_parent [infoStray1, infoStray2] ["/a"] = none ∧
    mergeGroup { defaultArgs with merge := "order" } ["/a"] [infoStray1, infoStray2] =
      .error PyErr.typeError := by
  exact ⟨rfl, rfl⟩

/-- C5, amended: with `--merge order` and no member matching any root,
`by_first_parent` yields a missing origin value (`None`), and the merge
step fails fatally — but with a generic uncaught `TypeError` from using
`None`, not a dedicated OriginSelectionError. -/
theorem no_root_match_typeerror (args : Args) (paths : List String) (g : List Info)
    (hmerge : args.merge = "order")
    (hmatch : ∀ i ∈ g, ∀ p ∈ paths, startswith i.path p = false)
    (hne : g ≠ []) :
    by_first_parent g paths = none ∧ mergeGroup args paths g = .error PyErr.typeError := by
  have hbfp : by_first_parent g paths = none := by
    induction paths with
    | nil => rfl
    | cons p ps ih =>
      show (match g.find? (fun i => startswith i.path p) with
        | some i => some i
        | none => by_first_parent g ps) = none
      have hfind : g.find? (fun i => startswith i.path p) = none := by
        rw [List.find?_eq_none]
        intro i hi
        simp [hmatch i hi p (List.mem_cons_self _ _)]
      rw [hfind]
      exact ih (fun i hi q hq => hmatch i hi q (List.mem_cons_of_mem _ hq))
  refine ⟨hbfp, ?_⟩
  have hmax : ¬args.merge = "max" := by
    rw [hmerge]
    decide
  unfold mergeGroup
  rw [if_neg hmax, if_pos hmerge, hbfp]
  by_cases h1 : args.mtime = "merge"
  · simp [h1]
  · by_cases h2 : args.mtime = "order"
    · simp [h1, h2, hbfp]
    · by_cases h3 : args.mtime = "max"
      · cases g with
        | nil => exact absurd rfl hne
        | cons x xs => simp [h1, h2, h3]
      · simp [h1, h2, h3]

/-- C5 witness: the amended theorem applied to the stray pair. -/
theorem no_root_match_typeerror_witness :
    by_first_parent [infoStray1, infoStray2] ["/q"] = none ∧
    mergeGroup { defaultArgs with merge := "order" } ["/q"] [infoStray1, infoStray2] =
      .error PyErr.typeError :=
  no_root_match_typeerror { defaultArgs with merge := "order" } ["/q"]
    [infoStray1, infoStray2] rfl (by decide) (by decide)

/-! ## The spec's two-file duplicate scenario (C1) -/

/-- A 10000-byte file under root A. -/
def fileA10k : Info :=
  { path := "/A/f", relpath := "f"
    stat := { st_dev := 1, st_ino := 80, st_size := 10000, st_mtime_ns := 0 }
    content := List.replicate 10000 7 }

/-- A byte-identical 10000-byte file under root B. -/
def fileB10k : Info :=
  { path := "/B/f", relpath := "f"
    stat := { st_dev := 1, st_ino := 81, st_size := 10000, st_mtime_ns := 0 }
    content := List.replicate 10000 7 }

/-- Root A. -/
def treeA10k : FSTree := .node true [fileA10k] []

/-- Root B. -/
def treeB10k : FSTree := .node true [fileB10k] []

/-- C1: both 10000-byte identical files pass the default size filter and
are scanned, yet the run reports zero confirmed groups (the claim and the
spec say one group of two, with the copy under A as origin).  The pair
survives the size and hash stages as one candidate group, but `selector`
(`min_size=2`) checks `len(bucket) == min_size` before appending, so a
bucket is emitted only when a third matching member arrives: duplicate
pairs are dropped and nothing is merged. -/
theorem two_identical_files_yield_no_confirmed_group (digest : List Nat → String) :
    scanItems defaultArgs.min_size defaultArgs.max_size false [treeA10k, treeB10k] =
      .ok [fileA10k, fileB10k] ∧
    confirmedGroups digest defaultArgs [fileA10k, fileB10k] = [] := by
  constructor
  · have hwA : walkTree false treeA10k = Except.ok [fileA10k] := by
      simp [treeA10k, walkTree, walkForest]
    have hwB : walkTree false treeB10k = Except.ok [fileB10k] := by
      simp [treeB10k, walkTree, walkForest]
    have hpA : (decide (defaultArgs.min_size < (fileA10k.stat.st_size : Int)) &&
        decide ((fileA10k.stat.st_size : Int) < defaultArgs.max_size)) = true := by
      have h1 : fileA10k.stat.st_size = 10000 := rfl
      rw [h1]
      decide
    have hpB : (decide (defaultArgs.min_size < (fileB10k.stat.st_size : Int)) &&
        decide ((fileB10k.stat.st_size : Int) < defaultArgs.max_size)) = true := by
      have h1 : fileB10k.stat.st_size = 10000 := rfl
      rw [h1]
      decide
    have hfA : sizeFilter defaultArgs.min_size defaultArgs.max_size [fileA10k] =
        [fileA10k] := by
      simp [sizeFilter, List.filter, hpA]
    have hfB : sizeFilter defaultArgs.min_size defaultArgs.max_size [fileB10k] =
        [fileB10k] := by
      simp [sizeFilter, List.filter, hpB]
    simp [scanItems, hwA, hwB, hfA, hfB]
  · have hsz : size fileA10k = size fileB10k := rfl
    have hhk : hashKey digest defaultArgs fileA10k = hashKey digest defaultArgs fileB10k := rfl
    have hbc : bytecmp fileB10k fileA10k = true := by
      have hc : fileB10k.content = fileA10k.content := rfl
      have hs : ¬(fileB10k.stat.st_size ≠ fileA10k.stat.st_size) := by
        have h1 : fileB10k.stat.st_size = fileA10k.stat.st_size := rfl
        simp [h1]
      have hf : ¬(fileid fileB10k = fileid fileA10k) := by
        have h1 : fileid fileB10k = (1, 81) := rfl
        have h2 : fileid fileA10k = (1, 80) := rfl
        rw [h1, h2]
        decide
      unfold bytecmp
      rw [if_neg hs, if_neg hf]
      exact decide_eq_true hc
    have h1 : stageReduce size [[fileA10k, fileB10k]] = [[fileA10k, fileB10k]] := by
      simp [stageReduce, group_pair fileA10k fileB10k size hsz]
    have h2 : stageReduce (hashKey digest defaultArgs) [[fileA10k, fileB10k]] =
        [[fileA10k, fileB10k]] := by
      simp [stageReduce, group_pair fileA10k fileB10k _ hhk]
    have h3 : stageExact [[fileA10k, fileB10k]] = [] := by
      have hsel := selector_pair fileA10k fileB10k bytecmp hbc
      simp [stageExact, hsel]
    simp only [confirmedGroups]
    rw [if_neg (by decide : ¬defaultArgs.groupby_relative = true), h1, h2, h3]

/-! ## Adaptive hashing (C9) -/

/-- C9: `--smarthash` uses the full (chunk-streamed) md5 of the whole
content for files strictly below 1024 bytes, and otherwise the fast hash:
the window of 4 bytes read at offset `size // 2`, which is full length 4
for any well-formed file of at least 1024 bytes. -/
theorem smarthash_adaptive (digest : List Nat → String) (i : Info)
    (hw : i.stat.st_size = i.content.length) :
    (i.stat.st_size < 1024 → smarthash digest i = .full (digest i.content)) ∧
    (1024 ≤ i.stat.st_size →
      smarthash digest i = .fast ((i.content.drop (i.stat.st_size / 2)).take 4) ∧
      (fasthash i).length = 4) := by
  have hsl : SMART_LIMIT = 1024 := rfl
  constructor
  · intro h
    unfold smarthash
    rw [if_pos (by rw [hsl]; exact h), md5_digests_content]
  · intro h
    have hnot : ¬i.stat.st_size < SMART_LIMIT := by
      rw [hsl]
      omega
    constructor
    · unfold smarthash
      rw [if_neg hnot]
      rfl
    · unfold fasthash size
      rw [List.length_take, List.length_drop, ← hw]
      omega

/-- A 10-byte file (below the adaptive threshold). -/
def fileTinyHash : Info :=
  { path := "/h/s", relpath := "s"
    stat := { st_dev := 1, st_ino := 85, st_size := 10, st_mtime_ns := 0 }
    content := [0, 1, 2, 3, 4, 5, 6, 7, 8, 9] }

/-- A 1024-byte file (at the adaptive threshold). -/
def fileBigHash : Info :=
  { path := "/h/b", relpath := "b"
    stat := { st_dev := 1, st_ino := 86, st_size := 1024, st_mtime_ns := 0 }
    content := List.replicate 1024 5 }

/-- C9 witness: the adaptive-hash theorem applied to a 10-byte and a
1024-byte file. -/
theorem smarthash_adaptive_witness :
    smarthash (fun _ => "d") fileTinyHash = .full ((fun _ => "d") fileTinyHash.content) ∧
    (smarthash (fun _ => "d") fileBigHash =
        .fast ((fileBigHash.content.drop (fileBigHash.stat.st_size / 2)).take 4) ∧
      (fasthash fileBigHash).length = 4) :=
  ⟨(smarthash_adaptive (fun _ => "d") fileTinyHash rfl).1 (by decide),
   (smarthash_adaptive (fun _ => "d") fileBigHash
      (by rw [show fileBigHash.content = List.replicate 1024 5 from rfl,
        List.length_replicate]; rfl)).2 (by decide)⟩

/-! ## Confirmed groups are byte-identical (C6) -/

theorem head?_mem {α : Type u} (g : List α) (x : α) (h : g.head? = some x) : x ∈ g := by
  cases g with
  | nil => cases h
  | cons a t =>
    simp only [List.head?_cons, Option.some.injEq] at h
    rw [← h]
    exact List.mem_cons_self _ _

/-- C6: on a record set where equal `(st_dev, st_ino)` implies equal size
and equal bytes (true of any real filesystem snapshot), every group the
`bytecmp` selector emits has at least two members and consists of
pairwise byte-identical members of equal size; in particular two files
with equal hash but different content never share a confirmed group. -/
theorem exact_groups_byte_identical (items : List Info) (hfid : FidConsistent items)
    (g : List Info) (hg : g ∈ (selector items bytecmp 2).2.2) :
    2 ≤ g.length ∧ ∀ x ∈ g, ∀ y ∈ g,
      x.stat.st_size = y.stat.st_size ∧ x.content = y.content := by
  obtain ⟨h0, hhead, hgeq, hlen⟩ :=
    selector_sound items bytecmp 2 (bytecmp_equivOn items hfid) g hg
  have hmem0 : h0 ∈ items := by
    have := head?_mem g h0 hhead
    rw [hgeq] at this
    exact List.mem_of_mem_filter this
  have hchar : ∀ x ∈ g, x.stat.st_size = h0.stat.st_size ∧ x.content = h0.content := by
    intro x hx
    rw [hgeq] at hx
    have hxi : x ∈ items := List.mem_of_mem_filter hx
    have hxc : bytecmp x h0 = true := by
      have h2 := (List.mem_filter.mp hx).2
      exact h2
    rw [bytecmp_char x h0 (hfid x hxi h0 hmem0)] at hxc
    simpa using hxc
  refine ⟨by omega, ?_⟩
  intro x hx y hy
  obtain ⟨hx1, hx2⟩ := hchar x hx
  obtain ⟨hy1, hy2⟩ := hchar y hy
  exact ⟨hx1.trans hy1.symm, hx2.trans hy2.symm⟩

/-- First of three byte-identical 5000-byte files. -/
def dupX1 : Info :=
  { path := "/r/1", relpath := "1"
    stat := { st_dev := 1, st_ino := 90, st_size := 5000, st_mtime_ns := 0 }
    content := [5, 6] }

/-- Second of three byte-identical 5000-byte files. -/
def dupX2 : Info :=
  { path := "/r/2", relpath := "2"
    stat := { st_dev := 1, st_ino := 91, st_size := 5000, st_mtime_ns := 0 }
    content := [5, 6] }

/-- Third of three byte-identical 5000-byte files. -/
def dupX3 : Info :=
  { path := "/r/3", relpath := "3"
    stat := { st_dev := 1, st_ino := 92, st_size := 5000, st_mtime_ns := 0 }
    content := [5, 6] }

/-- C6 witness: the byte-identity theorem applied to the group the
selector emits on three identical files. -/
theorem exact_groups_byte_identical_witness :
    2 ≤ ([dupX1, dupX2, dupX3] : List Info).length ∧
    ∀ x ∈ ([dupX1, dupX2, dupX3] : List Info), ∀ y ∈ ([dupX1, dupX2, dupX3] : List Info),
      x.stat.st_size = y.stat.st_size ∧ x.content = y.content :=
  exact_groups_byte_identical [dupX1, dupX2, dupX3] (by unfold FidConsistent; decide)
    [dupX1, dupX2, dupX3] (by decide)

/-! ## Emitted groups alias the live buckets (C10) -/

/-- C10: in `group`, the bucket appended to `groups_list` is the same
list object that keeps receiving later items, so each returned group is
exactly all input items sharing its key, in input order; likewise in
`selector` (run with `bytecmp` as in `main`), each returned group is
headed by its first member and holds exactly the input items matching
that first member, in input order. -/
theorem groups_alias_final_contents {κ : Type} [DecidableEq κ] (items : List Info)
    (hfid : FidConsistent items) (r : Info → κ) (m : Nat) :
    (∀ g ∈ (group items r m).2.2, ∃ k, g = keyFilter r k items) ∧
    (∀ g ∈ (selector items bytecmp 2).2.2,
      ∃ x, g.head? = some x ∧ g = items.filter (fun y => bytecmp y x)) := by
  constructor
  · intro g hg
    rw [group_out_eq] at hg
    obtain ⟨k, _, rfl⟩ := List.mem_map.mp hg
    exact ⟨k, rfl⟩
  · intro g hg
    obtain ⟨x, h1, h2, _⟩ :=
      selector_sound items bytecmp 2 (bytecmp_equivOn items hfid) g hg
    exact ⟨x, h1, h2⟩

/-- C10 witness: both halves applied to the run on three identical files
(`size` reducer with `min_size = 1`, then the `bytecmp` selector). -/
theorem groups_alias_final_contents_witness :
    (∃ k, [dupX1, dupX2, dupX3] = keyFilter size k [dupX1, dupX2, dupX3]) ∧
    (∃ x, ([dupX1, dupX2, dupX3] : List Info).head? = some x ∧
      [dupX1, dupX2, dupX3] = [dupX1, dupX2, dupX3].filter (fun y => bytecmp y x)) :=
  ⟨(groups_alias_final_contents [dupX1, dupX2, dupX3]
      (by unfold FidConsistent; decide) size 1).1 [dupX1, dupX2, dupX3] (by decide),
   (groups_alias_final_contents [dupX1, dupX2, dupX3]
      (by unfold FidConsistent; decide) size 1).2 [dupX1, dupX2, dupX3] (by decide)⟩

/-! ## Strict size bounds (C7) -/

/-- C7: the scanner keeps exactly the records with
`min_size < st_size < max_size`, strict at both ends, and consequently
every member of every confirmed group reported on a scanned tree obeys
the strict bounds — a file at or below `min_size` (e.g. exactly 100 bytes
under the default 4096) is never scanned and appears in no group. -/
theorem scanner_strict_size_bounds (minS maxS : Int) (items : List Info) :
    (∀ i : Info, i ∈ sizeFilter minS maxS items ↔
      i ∈ items ∧ minS < (i.stat.st_size : Int) ∧ (i.stat.st_size : Int) < maxS) ∧
    (∀ (digest : List Nat → String) (args : Args) (g : List Info),
      g ∈ confirmedGroups digest args (sizeFilter minS maxS items) →
      ∀ x ∈ g, minS < (x.stat.st_size : Int) ∧ (x.stat.st_size : Int) < maxS) := by
  constructor
  · intro i
    simp [sizeFilter, List.mem_filter, and_assoc]
  · intro digest args g hg x hx
    have hmem := confirmedGroups_subset digest args _ g hg x hx
    simp only [sizeFilter, List.mem_filter, Bool.and_eq_true, decide_eq_true_eq] at hmem
    exact hmem.2

/-- A 100-byte file (below the default `--min-size 4096`). -/
def tiny100a : Info :=
  { path := "/r/t1", relpath := "t1"
    stat := { st_dev := 1, st_ino := 95, st_size := 100, st_mtime_ns := 0 }
    content := [8] }

/-- A byte-identical 100-byte partner. -/
def tiny100b : Info :=
  { path := "/r/t2", relpath := "t2"
    stat := { st_dev := 1, st_ino := 96, st_size := 100, st_mtime_ns := 0 }
    content := [8] }

/-- C7 witness: on a tree holding three 5000-byte duplicates and a
100-byte duplicate pair, the scan (default bounds) drops the 100-byte
files, and the theorem applied to a member of the one reported group
yields the strict bounds. -/
theorem scanner_strict_size_bounds_witness :
    (4096 < ((dupX1.stat.st_size : Int)) ∧ (dupX1.stat.st_size : Int) < 9223372036854775807) ∧
    tiny100a ∉ sizeFilter 4096 9223372036854775807
      [dupX1, dupX2, dupX3, tiny100a, tiny100b] := by
  constructor
  · exact (scanner_strict_size_bounds 4096 9223372036854775807
      [dupX1, dupX2, dupX3, tiny100a, tiny100b]).2 (fun _ => "") defaultArgs
      [dupX1, dupX2, dupX3] (by decide) dupX1 (by decide)
  · intro h
    have h2 := ((scanner_strict_size_bounds 4096 9223372036854775807
      [dupX1, dupX2, dupX3, tiny100a, tiny100b]).1 tiny100a).mp h
    have h3 := h2.2.1
    norm_num [tiny100a] at h3

/-! ## Emission threshold of `group` (C3) -/

/-- C3, counterexample: with `min_size = 1`, a key reached by exactly one
item (one item, at least `min_size`) yields no emitted group — `group`
checks `len(bucket) == min_size` before appending, so emission needs
`min_size + 1` items. -/
theorem group_min_size_reached_not_emitted_cx :
    group [0] (fun a => a) 1 = ((1, 0, []) : Nat × Nat × List (List Nat)) ∧
    1 ≤ keyCount (fun a => a) 0 [0] := by
  exact ⟨rfl, by decide⟩

/-- C3, amended: a bucket is appended to the output list at the arrival
of the item that finds it already holding exactly `min_size` members (the
check precedes the append), so a key yields exactly one emitted group iff
it is reached by at least `min_size + 1` items, keys with at most
`min_size` items yield none, and items arriving after emission are still
counted: `grouped_count` sums the full final count of every bucket that
exceeded `min_size`. -/
theorem group_emission_threshold_amended {α : Type} {κ : Type} [DecidableEq α]
    [DecidableEq κ] (items : List α) (r : α → κ) (m : Nat) :
    (∀ k, m + 1 ≤ keyCount r k items →
      ((group items r m).2.2).count (keyFilter r k items) = 1) ∧
    (∀ k, keyCount r k items ≤ m → keyFilter r k items ∉ (group items r m).2.2) ∧
    (group items r m).2.1 =
      ∑ k ∈ (items.map r).toFinset, gWeight m (keyCount r k items) := by
  have hne_of_emit : ∀ k ∈ emitKeys r m items, keyFilter r k items ≠ [] := by
    intro k hk hnil
    have := (mem_emitKeys r m k items).mp hk
    have h0 : keyCount r k items = 0 := by simp [keyCount, hnil]
    omega
  have hinj : ∀ k, ∀ k2 ∈ emitKeys r m items,
      keyFilter r k2 items = keyFilter r k items → k2 = k := by
    intro k k2 hk2 heq
    cases hf : keyFilter r k2 items with
    | nil => exact absurd hf (hne_of_emit k2 hk2)
    | cons x xs =>
      have ha : r x = k2 := keyFilter_head_key r k2 items x xs hf
      have hb : r x = k := by
        refine keyFilter_head_key r k items x xs ?_
        rw [← heq, hf]
      rw [← ha, hb]
  refine ⟨?_, ?_, ?_⟩
  · intro k hk
    rw [group_out_eq, count_map_of_heads _ _ k (hinj k)]
    exact List.count_eq_one_of_mem (emitKeys_nodup r m items)
      ((mem_emitKeys r m k items).mpr hk)
  · intro k hk hmem
    rw [group_out_eq] at hmem
    obtain ⟨k2, hk2, heq⟩ := List.mem_map.mp hmem
    have : k2 = k := hinj k k2 hk2 heq
    subst this
    have := (mem_emitKeys r m k2 items).mp hk2
    omega
  · rw [group_grouped_count]
    have hset : (items.map r).toFinset = (firstKeys r items).toFinset := by
      ext k
      simp [List.mem_toFinset, mem_firstKeys]
    rw [hset, List.sum_toFinset _ (firstKeys_nodup r items)]

/-- C3 witness: the amended theorem applied to two items of one key with
`min_size = 1`. -/
theorem group_emission_threshold_amended_witness :
    ((group [0, 0] (fun a => a) 1).2.2).count (keyFilter (fun a => a) 0 [0, 0]) = 1 ∧
    keyFilter (fun a => a) 5 [0, 0] ∉ (group [0, 0] (fun a => a) 1).2.2 ∧
    (group [0, 0] (fun a => a) 1).2.1 =
      ∑ k ∈ ([0, 0].map (fun a : Nat => a)).toFinset,
        gWeight 1 (keyCount (fun a => a) k [0, 0]) :=
  ⟨(group_emission_threshold_amended [0, 0] (fun a => a) 1).1 0 (by decide),
   (group_emission_threshold_amended [0, 0] (fun a => a) 1).2.1 5 (by decide),
   (group_emission_threshold_amended [0, 0] (fun a => a) 1).2.2⟩

/-- C8 witness: the dry-run theorem applied to a concrete run on three
identical files, with its printed line extracted. -/
theorem dry_run_no_mutation_same_output_witness :
    (mainEffects (fun _ => "") { defaultArgs with dry_run := true } []
        [dupX1, dupX2, dupX3]).1 =
      ((mainEffects (fun _ => "") { defaultArgs with dry_run := false } []
        [dupX1, dupX2, dupX3]).1).filter Effect.isEcho ∧
    (Effect.echo (renderGroup [dupX1, dupX2, dupX3])).isEcho = true :=
  ⟨(dry_run_no_mutation_same_output (fun _ => "") defaultArgs []
      [dupX1, dupX2, dupX3]).1,
   (dry_run_no_mutation_same_output (fun _ => "") defaultArgs []
      [dupX1, dupX2, dupX3]).2.1 (Effect.echo (renderGroup [dupX1, dupX2, dupX3]))
      (by decide)⟩
